import Mathlib

/-!
Verification of the Fourier SVG drawer core (`src/main.rs`) against its
natural-language specification.

The source's `f32` arithmetic is modelled by exact rational arithmetic (`ℚ`).
The Euclidean length `(to - from).length()` computed by the external `lyon`
geometry library is modelled by `Rat.sqrt` of the squared distance, which is
exact whenever the squared distance is a perfect rational square (as in every
concrete contour used below).  The external `rustfft` forward transform is a
black box and is modelled as a function parameter.  The source's unbounded
`while` loops are modelled with an explicit `fuel` bound; every theorem either
supplies enough fuel for the loop to exit by its own guard, or is about the
states the loop actually reaches.
-/

/-- A 2-D point with real-valued coordinates (`lyon_path::math::Point`,
modelled over `ℚ`). -/
structure Point where
  x : ℚ
  y : ℚ
deriving DecidableEq, Repr

/-- A complex sample (`rustfft::num_complex::Complex<f32>`, modelled over `ℚ`). -/
structure Cplx where
  re : ℚ
  im : ℚ
deriving DecidableEq, Repr

/-- Squared Euclidean distance between two points. -/
def dist2 (p q : Point) : ℚ :=
  (q.x - p.x) ^ 2 + (q.y - p.y) ^ 2

/-- Length of the segment from `p` to `q`: models `(to - from).length()`
(Euclidean norm computed by the external geometry library).  `Rat.sqrt` is
exact whenever `dist2 p q` is a perfect rational square. -/
def segLen (p q : Point) : ℚ :=
  Rat.sqrt (dist2 p q)

/-- Linear interpolation `from + (to - from) * t` along a segment
(source line 83 and 127: `from + (to - from) * (last_added / current_line_length)`). -/
def lerp (a b : Point) (t : ℚ) : Point :=
  Point.mk (a.x + (b.x - a.x) * t) (a.y + (b.y - a.y) * t)

/-- The sample emitted by one iteration of the compensation loop (source
lines 96-98 and 136-138):
`from + (to - from) * (sample_length * c) / cll + (to - from) * (last + sample_length) / cll`. -/
def compSample (a b : Point) (cll sl last : ℚ) (c : ℕ) : Point :=
  Point.mk
    (a.x + (b.x - a.x) * (sl * (c : ℚ)) / cll + (b.x - a.x) * (last + sl) / cll)
    (a.y + (b.y - a.y) * (sl * (c : ℚ)) / cll + (b.y - a.y) * (last + sl) / cll)

/-- How the source stores a point as a sample: `Complex{ re: p.x, im: p.y }`. -/
def pointToCplx (p : Point) : Cplx :=
  Cplx.mk p.x p.y

/-- A flattened path event, as produced by `path.iter().flattened(0.01)`
(the external `lyon` segment stream): a begin point, a line segment, or an
end marker carrying the last point, the first point and the close flag. -/
inductive PathEvent where
  | begin (p : Point)
  | line (a b : Point)
  | stop (last first : Point) (close : Bool)
deriving DecidableEq, Repr

/-- The mutable state of `construct_sample_points`: the samples pushed so far,
`itered_length` (arc length consumed) and `itered_index` (next sample index). -/
structure RState where
  samples : List Cplx
  iteredLength : ℚ
  iteredIndex : ℕ
deriving DecidableEq, Repr

/-- The compensation `while` loop of the regular-segment branch (source
lines 93-104): `while sample_length * itered_index <= itered_length +
current_line_length`, with an inclusive (`<=`) upper bound.  `fuel` bounds the
number of iterations of the source's unbounded loop; `c` is
`compensation_counter`. -/
def compLoopLine (a b : Point) (cll sl last : ℚ) : ℕ → ℕ → RState → RState
  | 0, _, st => st
  | fuel + 1, c, st =>
    if sl * (st.iteredIndex : ℚ) ≤ st.iteredLength + cll then
      compLoopLine a b cll sl last fuel (c + 1)
        (RState.mk (st.samples ++ [pointToCplx (compSample a b cll sl last c)])
          st.iteredLength (st.iteredIndex + 1))
    else st

/-- The compensation `while` loop of the closing-segment branch (source
lines 133-144): identical to `compLoopLine` except that the guard is the
strict `<` of source line 133. -/
def compLoopClose (a b : Point) (cll sl last : ℚ) : ℕ → ℕ → RState → RState
  | 0, _, st => st
  | fuel + 1, c, st =>
    if sl * (st.iteredIndex : ℚ) < st.iteredLength + cll then
      compLoopClose a b cll sl last fuel (c + 1)
        (RState.mk (st.samples ++ [pointToCplx (compSample a b cll sl last c)])
          st.iteredLength (st.iteredIndex + 1))
    else st

/-- The first-sample branch shared verbatim by the regular-segment case
(source lines 76-89) and the closing-segment case (source lines 117-130):
if the next sample target lies within this segment, emit one interpolated
sample and advance the index.  Returns the updated state together with
`last_added_sample_on_this_segment` (0 when the branch does not fire). -/
def firstBranch (sl cll : ℚ) (a b : Point) (st : RState) : RState × ℚ :=
  if st.iteredLength < sl * (st.iteredIndex : ℚ) then
    if st.iteredLength + cll ≥ sl * (st.iteredIndex : ℚ) then
      (RState.mk
        (st.samples ++
          [pointToCplx (lerp a b
            ((sl - (st.iteredLength - sl * ((st.iteredIndex - 1 : ℕ) : ℚ))) / cll))])
        st.iteredLength (st.iteredIndex + 1),
       sl - (st.iteredLength - sl * ((st.iteredIndex - 1 : ℕ) : ℚ)))
    else (st, 0)
  else (st, 0)

/-- Processing of one `PathEvent::Line { from: a, to: b }` (source
lines 72-106): first-sample branch, compensation loop with inclusive bound,
then `itered_length += current_line_length`. -/
def processLine (sl : ℚ) (a b : Point) (fuel : ℕ) (st : RState) : RState :=
  let cll := segLen a b
  let fb := firstBranch sl cll a b st
  let st2 := compLoopLine a b cll sl fb.2 fuel 0 fb.1
  RState.mk st2.samples (st2.iteredLength + cll) st2.iteredIndex

/-- Processing of the implicit closing segment in `PathEvent::End { last: a,
first: b, close: true }` (source lines 108-146): the same first-sample branch,
then the compensation loop with the strict bound; `itered_length` is not
accumulated afterwards. -/
def processClose (sl : ℚ) (a b : Point) (fuel : ℕ) (st : RState) : RState :=
  let cll := segLen a b
  let fb := firstBranch sl cll a b st
  compLoopClose a b cll sl fb.2 fuel 0 fb.1

/-- One iteration of the event loop of `construct_sample_points`
(source lines 64-148). -/
def stepEvent (sl : ℚ) (fuel : ℕ) (st : RState) : PathEvent → RState
  | PathEvent.begin p =>
      RState.mk (st.samples ++ [pointToCplx p]) st.iteredLength (st.iteredIndex + 1)
  | PathEvent.line a b => processLine sl a b fuel st
  | PathEvent.stop last first close =>
      if close then processClose sl last first fuel st else st

/-- The event loop of `construct_sample_points`, run over the flattened
event stream. -/
def runEvents (sl : ℚ) (fuel : ℕ) : RState → List PathEvent → RState
  | st, [] => st
  | st, e :: es => runEvents sl fuel (stepEvent sl fuel st e) es

/-- The resampler `construct_sample_points` (source lines 46-149): walks the flattened event
stream once with `sample_length = total_length / n_sample` and returns the
pushed samples. -/
def construct_sample_points (evs : List PathEvent) (total_length : ℚ)
    (n_sample : ℕ) (fuel : ℕ) : List Cplx :=
  (runEvents (total_length / (n_sample : ℚ)) fuel (RState.mk [] 0 0) evs).samples

/-- One iteration of the event loop of `compute_path_length`
(source lines 30-42). -/
def lengthStep (acc : ℚ) : PathEvent → ℚ
  | PathEvent.begin _ => acc
  | PathEvent.line a b => acc + segLen a b
  | PathEvent.stop last first close => if close then acc + segLen last first else acc

/-- The path length measurer `compute_path_length` (source lines 16-44): sums the lengths of all line
events, plus the closing segment when the end event closes the contour. -/
def compute_path_length (evs : List PathEvent) : ℚ :=
  evs.foldl lengthStep 0

/-- The trimming loop of `path_to_fft` (source lines 155-157):
`while samples.len() > n_sample { samples.remove(n_sample); }`. -/
def trimSamples (samples : List Cplx) (n : ℕ) : List Cplx :=
  if h : n < samples.length then trimSamples (samples.eraseIdx n) n else samples
termination_by samples.length
decreasing_by
  simp only [List.length_eraseIdx, h, if_true]
  omega

/-- The normalization applied after the transform (source lines 163-165):
`samples[i] = samples[i] / samples.len() as f32` — a complex value divided by
a real scalar divides both parts. -/
def normalizeBy (len : ℕ) (z : Cplx) : Cplx :=
  Cplx.mk (z.re / (len : ℚ)) (z.im / (len : ℚ))

/-- The pipeline core `path_to_fft` (source lines 151-167): measure the path, resample, trim to
`n_sample`, run the external forward FFT (`rustfft`, passed here as the black
box `fftImpl`), then divide every coefficient by the buffer length. -/
def path_to_fft (fftImpl : List Cplx → List Cplx) (evs : List PathEvent)
    (n_sample fuel : ℕ) : List Cplx :=
  let path_length := compute_path_length evs
  let samples := construct_sample_points evs path_length n_sample fuel
  let samples2 := trimSamples samples n_sample
  let samples3 := fftImpl samples2
  samples3.map (normalizeBy samples3.length)

/-- The sample vector handed to the spectrum transform: resampling followed by
the trimming correction of `path_to_fft` (source lines 152-157). -/
def resampled (evs : List PathEvent) (n_sample fuel : ℕ) : List Cplx :=
  trimSamples
    (construct_sample_points evs (compute_path_length evs) n_sample fuel) n_sample

/-- A flattened contour: a start point, the successive segment endpoints, and
whether the contour closes.  This is the shape of stream the external
`lyon` flattening iterator produces for one open-or-closed subpath. -/
structure Contour where
  start : Point
  pts : List Point
  closed : Bool

/-- The line events of a polyline from `p` through `qs`. -/
def lineEvents : Point → List Point → List PathEvent
  | _, [] => []
  | p, q :: qs => PathEvent.line p q :: lineEvents q qs

/-- The event stream the external flattening iterator emits for a contour:
a begin event, the line events, and the end event carrying the last point,
the first point and the close flag. -/
def events (c : Contour) : List PathEvent :=
  PathEvent.begin c.start ::
    (lineEvents c.start c.pts ++
      [PathEvent.stop (c.pts.getLastD c.start) c.start c.closed])

/-- Sum of the segment lengths of a polyline (the specification's
"sum of all Segment lengths"). -/
def polyLen : Point → List Point → ℚ
  | _, [] => 0
  | p, q :: qs => segLen p q + polyLen q qs

/-- Modelled from the spec: the `fft_drawer::DrawData` container comes from a
module of this repository that is not under `src/`; per §3 a
FrequencyComponent is a signed frequency together with a complex coefficient. -/
structure DrawData where
  frequency : ℚ
  coefficient : Cplx
deriving DecidableEq, Repr

/-- Modelled from the spec: the constructor `DrawData::new_from_complex(freq, coeff)` packs a
frequency (the source passes it as an `f32`) with a complex coefficient. -/
def new_from_complex (f : ℚ) (z : Cplx) : DrawData :=
  DrawData.mk f z

/-- The wave-extraction loop of `main` (source lines 246-252): component 0 is
`fft_result[0]`; then `for i in 1..(num_wave / 2)` (an upper-EXCLUSIVE Rust
range) pushes `(i, fft_result[i])` and `(−i, fft_result[fft_size − i])`.
Out-of-range indexing (which would panic in Rust) is modelled by `getD`; every
claim instance keeps the indices in range. -/
def extract_components (fft_result : List Cplx) (fft_size num_wave : ℕ) :
    List DrawData :=
  (List.range' 1 (num_wave / 2 - 1)).foldl
    (fun data (i : ℕ) =>
      data ++
        [new_from_complex (i : ℚ) (fft_result.getD i (Cplx.mk 0 0)),
         new_from_complex (-(i : ℚ)) (fft_result.getD (fft_size - i) (Cplx.mk 0 0))])
    [new_from_complex 0 (fft_result.getD 0 (Cplx.mk 0 0))]

/-- A concrete 16-bin spectrum with pairwise distinct coefficients. -/
def spec16 : List Cplx :=
  (List.range 16).map (fun k => Cplx.mk (k : ℚ) 0)

/-- The embedding of a rational complex sample into `ℂ`, used to state the
DFT formula of the specification. -/
def cplxToComplex (z : Cplx) : ℂ :=
  Complex.mk (z.re : ℝ) (z.im : ℝ)

/-! ### Helper lemmas -/

theorem segLen_nonneg (p q : Point) : 0 ≤ segLen p q :=
  Rat.sqrt_nonneg _

theorem polyLen_nonneg (p : Point) (qs : List Point) : 0 ≤ polyLen p qs := by
  induction qs generalizing p with
  | nil => simp [polyLen]
  | cons q qs ih =>
    have := segLen_nonneg p q
    have := ih q
    simp only [polyLen]
    linarith

theorem trimSamples_eq_take (s : List Cplx) (n : ℕ) : trimSamples s n = s.take n := by
  have key : ∀ (k : ℕ) (s : List Cplx), s.length ≤ k → trimSamples s n = s.take n := by
    intro k
    induction k with
    | zero =>
      intro s hs
      have : s = [] := List.length_eq_zero.mp (Nat.le_zero.mp hs)
      subst this
      rw [trimSamples]
      simp
    | succ k ih =>
      intro s hs
      rw [trimSamples]
      by_cases h : n < s.length
      · simp only [h, dif_pos]
        have hlen : (s.eraseIdx n).length ≤ k := by
          rw [List.length_eraseIdx]
          simp only [h, if_true]
          omega
        rw [ih _ hlen, List.eraseIdx_eq_take_drop_succ]
        have htake : n ≤ (s.take n).length := by
          rw [List.length_take]
          omega
        rw [List.take_append_of_le_length htake, List.take_take]
        simp
      · simp only [h, dif_neg, not_false_iff]
        rw [List.take_of_length_le (Nat.le_of_not_lt h)]
  exact key s.length s le_rfl

theorem trimSamples_length (s : List Cplx) (n : ℕ) :
    (trimSamples s n).length = min s.length n := by
  rw [trimSamples_eq_take, List.length_take, Nat.min_comm]

theorem foldl_lengthStep_lineEvents (qs : List Point) :
    ∀ (p : Point) (acc : ℚ),
      (lineEvents p qs).foldl lengthStep acc = acc + polyLen p qs := by
  induction qs with
  | nil => intro p acc; simp [lineEvents, polyLen]
  | cons q qs ih =>
    intro p acc
    simp only [lineEvents, List.foldl_cons, polyLen, lengthStep]
    rw [ih q]
    ring

theorem compute_path_length_events (c : Contour) :
    compute_path_length (events c) =
      polyLen c.start c.pts +
        (if c.closed then segLen (c.pts.getLastD c.start) c.start else 0) := by
  simp only [compute_path_length, events, List.foldl_cons, List.foldl_append,
    List.foldl_nil, lengthStep]
  rw [foldl_lengthStep_lineEvents]
  cases c.closed <;> simp [lengthStep]

theorem runEvents_append (sl : ℚ) (fuel : ℕ) (l1 l2 : List PathEvent) :
    ∀ st, runEvents sl fuel st (l1 ++ l2) = runEvents sl fuel (runEvents sl fuel st l1) l2 := by
  induction l1 with
  | nil => intro st; simp [runEvents]
  | cons e es ih =>
    intro st
    simp only [List.cons_append, runEvents]
    exact ih _

theorem compLoopLine_iteredLength (a b : Point) (cll sl last : ℚ) :
    ∀ (fuel c : ℕ) (st : RState),
      (compLoopLine a b cll sl last fuel c st).iteredLength = st.iteredLength := by
  intro fuel
  induction fuel with
  | zero => intro c st; rfl
  | succ fuel ih =>
    intro c st
    simp only [compLoopLine]
    split
    · rw [ih]
    · rfl

theorem compLoopClose_iteredLength (a b : Point) (cll sl last : ℚ) :
    ∀ (fuel c : ℕ) (st : RState),
      (compLoopClose a b cll sl last fuel c st).iteredLength = st.iteredLength := by
  intro fuel
  induction fuel with
  | zero => intro c st; rfl
  | succ fuel ih =>
    intro c st
    simp only [compLoopClose]
    split
    · rw [ih]
    · rfl

theorem compLoopLine_index_le (a b : Point) (cll sl last : ℚ) :
    ∀ (fuel c : ℕ) (st : RState),
      st.iteredIndex ≤ (compLoopLine a b cll sl last fuel c st).iteredIndex := by
  intro fuel
  induction fuel with
  | zero => intro c st; exact le_rfl
  | succ fuel ih =>
    intro c st
    simp only [compLoopLine]
    split
    · exact le_trans (Nat.le_succ _)
        (ih (c + 1)
          (RState.mk (st.samples ++ [pointToCplx (compSample a b cll sl last c)])
            st.iteredLength (st.iteredIndex + 1)))
    · exact le_rfl

theorem compLoopClose_index_le (a b : Point) (cll sl last : ℚ) :
    ∀ (fuel c : ℕ) (st : RState),
      st.iteredIndex ≤ (compLoopClose a b cll sl last fuel c st).iteredIndex := by
  intro fuel
  induction fuel with
  | zero => intro c st; exact le_rfl
  | succ fuel ih =>
    intro c st
    simp only [compLoopClose]
    split
    · exact le_trans (Nat.le_succ _)
        (ih (c + 1)
          (RState.mk (st.samples ++ [pointToCplx (compSample a b cll sl last c)])
            st.iteredLength (st.iteredIndex + 1)))
    · exact le_rfl

theorem compLoopLine_length (a b : Point) (cll sl last : ℚ) :
    ∀ (fuel c : ℕ) (st : RState),
      (compLoopLine a b cll sl last fuel c st).samples.length + st.iteredIndex
        = st.samples.length + (compLoopLine a b cll sl last fuel c st).iteredIndex := by
  intro fuel
  induction fuel with
  | zero => intro c st; rfl
  | succ fuel ih =>
    intro c st
    simp only [compLoopLine]
    split
    · have h := ih (c + 1)
        (RState.mk (st.samples ++ [pointToCplx (compSample a b cll sl last c)])
          st.iteredLength (st.iteredIndex + 1))
      simp only [List.length_append, List.length_cons, List.length_nil] at h
      omega
    · rfl

theorem compLoopClose_length (a b : Point) (cll sl last : ℚ) :
    ∀ (fuel c : ℕ) (st : RState),
      (compLoopClose a b cll sl last fuel c st).samples.length + st.iteredIndex
        = st.samples.length + (compLoopClose a b cll sl last fuel c st).iteredIndex := by
  intro fuel
  induction fuel with
  | zero => intro c st; rfl
  | succ fuel ih =>
    intro c st
    simp only [compLoopClose]
    split
    · have h := ih (c + 1)
        (RState.mk (st.samples ++ [pointToCplx (compSample a b cll sl last c)])
          st.iteredLength (st.iteredIndex + 1))
      simp only [List.length_append, List.length_cons, List.length_nil] at h
      omega
    · rfl

theorem compLoopLine_exit (a b : Point) (cll sl last : ℚ) :
    ∀ (fuel c : ℕ) (st : RState),
      st.iteredLength + cll < sl * ((st.iteredIndex + fuel : ℕ) : ℚ) →
      st.iteredLength + cll
        ≤ sl * ((compLoopLine a b cll sl last fuel c st).iteredIndex : ℚ) := by
  intro fuel
  induction fuel with
  | zero =>
    intro c st h
    simp only [Nat.add_zero] at h
    exact le_of_lt h
  | succ fuel ih =>
    intro c st h
    simp only [compLoopLine]
    split
    · have h' := ih (c + 1)
        (RState.mk (st.samples ++ [pointToCplx (compSample a b cll sl last c)])
          st.iteredLength (st.iteredIndex + 1))
      apply h'
      have : st.iteredIndex + 1 + fuel = st.iteredIndex + (fuel + 1) := by omega
      simp only [this]
      exact h
    · rename_i hguard
      exact le_of_not_lt (fun hlt => hguard (le_of_lt hlt))

theorem compLoopClose_exit (a b : Point) (cll sl last : ℚ) :
    ∀ (fuel c : ℕ) (st : RState),
      st.iteredLength + cll < sl * ((st.iteredIndex + fuel : ℕ) : ℚ) →
      st.iteredLength + cll
        ≤ sl * ((compLoopClose a b cll sl last fuel c st).iteredIndex : ℚ) := by
  intro fuel
  induction fuel with
  | zero =>
    intro c st h
    simp only [Nat.add_zero] at h
    exact le_of_lt h
  | succ fuel ih =>
    intro c st h
    simp only [compLoopClose]
    split
    · have h' := ih (c + 1)
        (RState.mk (st.samples ++ [pointToCplx (compSample a b cll sl last c)])
          st.iteredLength (st.iteredIndex + 1))
      apply h'
      have : st.iteredIndex + 1 + fuel = st.iteredIndex + (fuel + 1) := by omega
      simp only [this]
      exact h
    · rename_i hguard
      exact le_of_not_lt hguard

theorem firstBranch_state (sl cll : ℚ) (a b : Point) (st : RState) :
    (firstBranch sl cll a b st).1.iteredLength = st.iteredLength ∧
    st.iteredIndex ≤ (firstBranch sl cll a b st).1.iteredIndex ∧
    (firstBranch sl cll a b st).1.samples.length + st.iteredIndex
      = st.samples.length + (firstBranch sl cll a b st).1.iteredIndex := by
  unfold firstBranch
  split
  · split
    · refine ⟨rfl, Nat.le_succ _, ?_⟩
      simp only [List.length_append, List.length_cons, List.length_nil]
      omega
    · exact ⟨rfl, le_rfl, rfl⟩
  · exact ⟨rfl, le_rfl, rfl⟩

theorem processLine_def (sl : ℚ) (a b : Point) (fuel : ℕ) (st : RState) :
    processLine sl a b fuel st =
      RState.mk
        (compLoopLine a b (segLen a b) sl (firstBranch sl (segLen a b) a b st).2 fuel 0
          (firstBranch sl (segLen a b) a b st).1).samples
        ((compLoopLine a b (segLen a b) sl (firstBranch sl (segLen a b) a b st).2 fuel 0
          (firstBranch sl (segLen a b) a b st).1).iteredLength + segLen a b)
        ((compLoopLine a b (segLen a b) sl (firstBranch sl (segLen a b) a b st).2 fuel 0
          (firstBranch sl (segLen a b) a b st).1).iteredIndex) := rfl

theorem processClose_def (sl : ℚ) (a b : Point) (fuel : ℕ) (st : RState) :
    processClose sl a b fuel st =
      compLoopClose a b (segLen a b) sl (firstBranch sl (segLen a b) a b st).2 fuel 0
        (firstBranch sl (segLen a b) a b st).1 := rfl

theorem processLine_post (sl : ℚ) (a b : Point) (fuel : ℕ) (st : RState)
    (hsl : 0 ≤ sl)
    (hfuel : st.iteredLength + segLen a b < sl * (fuel : ℚ)) :
    (processLine sl a b fuel st).iteredLength = st.iteredLength + segLen a b ∧
    st.iteredIndex ≤ (processLine sl a b fuel st).iteredIndex ∧
    (processLine sl a b fuel st).samples.length + st.iteredIndex
      = st.samples.length + (processLine sl a b fuel st).iteredIndex ∧
    st.iteredLength + segLen a b
      ≤ sl * ((processLine sl a b fuel st).iteredIndex : ℚ) := by
  obtain ⟨hfb1, hfb2, hfb3⟩ := firstBranch_state sl (segLen a b) a b st
  rw [processLine_def]
  set fb := firstBranch sl (segLen a b) a b st with hfbdef
  set st2 := compLoopLine a b (segLen a b) sl fb.2 fuel 0 fb.1 with hst2def
  have hlen : st2.iteredLength = fb.1.iteredLength :=
    compLoopLine_iteredLength a b (segLen a b) sl fb.2 fuel 0 fb.1
  have hidx : fb.1.iteredIndex ≤ st2.iteredIndex :=
    compLoopLine_index_le a b (segLen a b) sl fb.2 fuel 0 fb.1
  have hcnt : st2.samples.length + fb.1.iteredIndex
      = fb.1.samples.length + st2.iteredIndex :=
    compLoopLine_length a b (segLen a b) sl fb.2 fuel 0 fb.1
  have hexit : fb.1.iteredLength + segLen a b ≤ sl * (st2.iteredIndex : ℚ) := by
    apply compLoopLine_exit
    rw [hfb1]
    calc st.iteredLength + segLen a b < sl * (fuel : ℚ) := hfuel
      _ ≤ sl * ((fb.1.iteredIndex + fuel : ℕ) : ℚ) := by
          apply mul_le_mul_of_nonneg_left _ hsl
          exact_mod_cast Nat.le_add_left fuel fb.1.iteredIndex
  refine ⟨by simp only [hlen, hfb1], le_trans hfb2 hidx, ?_, ?_⟩
  · simp only
    omega
  · simp only
    rw [hfb1] at hexit
    exact hexit

theorem processClose_post (sl : ℚ) (a b : Point) (fuel : ℕ) (st : RState)
    (hsl : 0 ≤ sl)
    (hfuel : st.iteredLength + segLen a b < sl * (fuel : ℚ)) :
    (processClose sl a b fuel st).iteredLength = st.iteredLength ∧
    st.iteredIndex ≤ (processClose sl a b fuel st).iteredIndex ∧
    (processClose sl a b fuel st).samples.length + st.iteredIndex
      = st.samples.length + (processClose sl a b fuel st).iteredIndex ∧
    st.iteredLength + segLen a b
      ≤ sl * ((processClose sl a b fuel st).iteredIndex : ℚ) := by
  obtain ⟨hfb1, hfb2, hfb3⟩ := firstBranch_state sl (segLen a b) a b st
  rw [processClose_def]
  set fb := firstBranch sl (segLen a b) a b st with hfbdef
  set st2 := compLoopClose a b (segLen a b) sl fb.2 fuel 0 fb.1 with hst2def
  have hlen : st2.iteredLength = fb.1.iteredLength :=
    compLoopClose_iteredLength a b (segLen a b) sl fb.2 fuel 0 fb.1
  have hidx : fb.1.iteredIndex ≤ st2.iteredIndex :=
    compLoopClose_index_le a b (segLen a b) sl fb.2 fuel 0 fb.1
  have hcnt : st2.samples.length + fb.1.iteredIndex
      = fb.1.samples.length + st2.iteredIndex :=
    compLoopClose_length a b (segLen a b) sl fb.2 fuel 0 fb.1
  have hexit : fb.1.iteredLength + segLen a b ≤ sl * (st2.iteredIndex : ℚ) := by
    apply compLoopClose_exit
    rw [hfb1]
    calc st.iteredLength + segLen a b < sl * (fuel : ℚ) := hfuel
      _ ≤ sl * ((fb.1.iteredIndex + fuel : ℕ) : ℚ) := by
          apply mul_le_mul_of_nonneg_left _ hsl
          exact_mod_cast Nat.le_add_left fuel fb.1.iteredIndex
  refine ⟨by rw [hlen, hfb1], le_trans hfb2 hidx, by omega, ?_⟩
  rw [hfb1] at hexit
  exact hexit

theorem runLines_post (sl : ℚ) (fuel : ℕ) (hsl : 0 ≤ sl) :
    ∀ (qs : List Point) (p : Point) (st : RState),
      st.iteredLength + polyLen p qs < sl * (fuel : ℚ) →
      ((runEvents sl fuel st (lineEvents p qs)).iteredLength
          = st.iteredLength + polyLen p qs ∧
       st.iteredIndex ≤ (runEvents sl fuel st (lineEvents p qs)).iteredIndex ∧
       (runEvents sl fuel st (lineEvents p qs)).samples.length + st.iteredIndex
          = st.samples.length + (runEvents sl fuel st (lineEvents p qs)).iteredIndex ∧
       (st.iteredLength ≤ sl * (st.iteredIndex : ℚ) →
        (runEvents sl fuel st (lineEvents p qs)).iteredLength
          ≤ sl * ((runEvents sl fuel st (lineEvents p qs)).iteredIndex : ℚ))) := by
  intro qs
  induction qs with
  | nil =>
    intro p st _
    simp only [lineEvents, runEvents, polyLen, add_zero]
    exact ⟨trivial, le_rfl, trivial, fun h => h⟩
  | cons q qs ih =>
    intro p st hfuel
    simp only [lineEvents, runEvents, stepEvent, polyLen] at hfuel ⊢
    have hpoly : 0 ≤ polyLen q qs := polyLen_nonneg q qs
    have hline : st.iteredLength + segLen p q < sl * (fuel : ℚ) := by linarith
    obtain ⟨hL1, hL2, hL3, hL4⟩ := processLine_post sl p q fuel st hsl hline
    have hfuel' : (processLine sl p q fuel st).iteredLength + polyLen q qs
        < sl * (fuel : ℚ) := by
      rw [hL1]
      linarith
    obtain ⟨hI1, hI2, hI3, hI4⟩ := ih q (processLine sl p q fuel st) hfuel'
    refine ⟨?_, le_trans hL2 hI2, by omega, ?_⟩
    · rw [hI1, hL1]
      ring
    · intro _
      apply hI4
      rw [hL1]
      exact hL4

theorem construct_samples_count (c : Contour) (n fuel : ℕ) (hn : 1 ≤ n)
    (hfuel : n + 1 ≤ fuel)
    (hL : 0 < compute_path_length (events c)) :
    n ≤ (construct_sample_points (events c) (compute_path_length (events c)) n fuel).length := by
  set L := compute_path_length (events c) with hLdef
  set sl := L / (n : ℚ) with hsldef
  have hn0 : (0 : ℚ) < (n : ℚ) := by exact_mod_cast hn
  have hsl : 0 < sl := div_pos hL hn0
  have hsln : sl * (n : ℚ) = L := by
    rw [hsldef]
    field_simp
  have hdecomp := compute_path_length_events c
  set closing := (if c.closed then segLen (c.pts.getLastD c.start) c.start else 0)
    with hclosingdef
  have hclose_nonneg : 0 ≤ closing := by
    rw [hclosingdef]
    split
    · exact segLen_nonneg _ _
    · exact le_rfl
  have hpoly_le : polyLen c.start c.pts ≤ L := by
    rw [hLdef, hdecomp]
    linarith
  have hslfuel : L < sl * (fuel : ℚ) := by
    calc L < L + sl := by linarith
      _ = sl * (n : ℚ) + sl := by rw [hsln]
      _ = sl * ((n + 1 : ℕ) : ℚ) := by push_cast; ring
      _ ≤ sl * (fuel : ℚ) := by
          apply mul_le_mul_of_nonneg_left _ (le_of_lt hsl)
          exact_mod_cast hfuel
  -- unfold the run over begin :: (lines ++ [stop])
  have hrun : runEvents sl fuel (RState.mk [] 0 0) (events c)
      = stepEvent sl fuel
          (runEvents sl fuel (RState.mk [pointToCplx c.start] 0 1)
            (lineEvents c.start c.pts))
          (PathEvent.stop (c.pts.getLastD c.start) c.start c.closed) := by
    simp only [events, runEvents, stepEvent, List.nil_append]
    rw [runEvents_append]
    simp only [runEvents]
    rfl
  set stB : RState := RState.mk [pointToCplx c.start] 0 1 with hstBdef
  have hlinefuel : stB.iteredLength + polyLen c.start c.pts < sl * (fuel : ℚ) := by
    simp only [hstBdef]
    calc (0 : ℚ) + polyLen c.start c.pts = polyLen c.start c.pts := by ring
      _ ≤ L := hpoly_le
      _ < sl * (fuel : ℚ) := hslfuel
  obtain ⟨hP1, hP2, hP3, hP4⟩ :=
    runLines_post sl fuel (le_of_lt hsl) c.pts c.start stB hlinefuel
  set stL := runEvents sl fuel stB (lineEvents c.start c.pts) with hstLdef
  have hstLlen : stL.samples.length = stL.iteredIndex := by
    simp only [hstBdef] at hP3
    simp only [List.length_cons, List.length_nil] at hP3
    omega
  have hstLinv : stL.iteredLength ≤ sl * (stL.iteredIndex : ℚ) := by
    apply hP4
    simp only [hstBdef]
    have : (0 : ℚ) ≤ sl * (1 : ℚ) := by linarith
    simpa using this
  have hstLT : stL.iteredLength = polyLen c.start c.pts := by
    simp only [hstBdef] at hP1
    simpa using hP1
  have hidx_ge : ∀ (stF : RState), stF.samples.length = stF.iteredIndex →
      L ≤ sl * (stF.iteredIndex : ℚ) → n ≤ stF.samples.length := by
    intro stF hlen hge
    rw [hlen]
    have : sl * (n : ℚ) ≤ sl * (stF.iteredIndex : ℚ) := by rw [hsln]; exact hge
    have hle : (n : ℚ) ≤ (stF.iteredIndex : ℚ) :=
      le_of_mul_le_mul_left this hsl
    exact_mod_cast hle
  rw [construct_sample_points, hrun]
  by_cases hclosed : c.closed
  · -- closing segment is walked with the strict-bound loop
    simp only [stepEvent, hclosed, if_true]
    have hclosefuel : stL.iteredLength + segLen (c.pts.getLastD c.start) c.start
        < sl * (fuel : ℚ) := by
      rw [hstLT]
      have : polyLen c.start c.pts + segLen (c.pts.getLastD c.start) c.start = L := by
        rw [hLdef, hdecomp, hclosingdef, if_pos hclosed]
      rw [this]
      exact hslfuel
    obtain ⟨hC1, hC2, hC3, hC4⟩ :=
      processClose_post sl (c.pts.getLastD c.start) c.start fuel stL
        (le_of_lt hsl) hclosefuel
    apply hidx_ge
    · omega
    · have : polyLen c.start c.pts + segLen (c.pts.getLastD c.start) c.start = L := by
        rw [hLdef, hdecomp, hclosingdef, if_pos hclosed]
      rw [← this, ← hstLT]
      exact hC4
  · -- open contour: the end event does nothing
    simp only [stepEvent, hclosed, if_false]
    apply hidx_ge stL hstLlen
    have : L = polyLen c.start c.pts := by
      rw [hLdef, hdecomp, hclosingdef, if_neg hclosed]
      ring
    rw [this, ← hstLT]
    exact hstLinv

theorem compLoopLine_samples_ext (a b : Point) (cll sl last : ℚ) :
    ∀ (fuel c : ℕ) (st : RState),
      ∃ t, (compLoopLine a b cll sl last fuel c st).samples = st.samples ++ t := by
  intro fuel
  induction fuel with
  | zero => intro c st; exact ⟨[], by simp [compLoopLine]⟩
  | succ fuel ih =>
    intro c st
    simp only [compLoopLine]
    split
    · obtain ⟨t, ht⟩ := ih (c + 1)
        (RState.mk (st.samples ++ [pointToCplx (compSample a b cll sl last c)])
          st.iteredLength (st.iteredIndex + 1))
      exact ⟨[pointToCplx (compSample a b cll sl last c)] ++ t, by
        rw [ht]; simp⟩
    · exact ⟨[], by simp⟩

theorem compLoopClose_samples_ext (a b : Point) (cll sl last : ℚ) :
    ∀ (fuel c : ℕ) (st : RState),
      ∃ t, (compLoopClose a b cll sl last fuel c st).samples = st.samples ++ t := by
  intro fuel
  induction fuel with
  | zero => intro c st; exact ⟨[], by simp [compLoopClose]⟩
  | succ fuel ih =>
    intro c st
    simp only [compLoopClose]
    split
    · obtain ⟨t, ht⟩ := ih (c + 1)
        (RState.mk (st.samples ++ [pointToCplx (compSample a b cll sl last c)])
          st.iteredLength (st.iteredIndex + 1))
      exact ⟨[pointToCplx (compSample a b cll sl last c)] ++ t, by
        rw [ht]; simp⟩
    · exact ⟨[], by simp⟩

theorem firstBranch_samples_ext (sl cll : ℚ) (a b : Point) (st : RState) :
    ∃ t, (firstBranch sl cll a b st).1.samples = st.samples ++ t := by
  unfold firstBranch
  split
  · split
    · exact ⟨_, rfl⟩
    · exact ⟨[], by simp⟩
  · exact ⟨[], by simp⟩

theorem stepEvent_samples_ext (sl : ℚ) (fuel : ℕ) (st : RState) (e : PathEvent) :
    ∃ t, (stepEvent sl fuel st e).samples = st.samples ++ t := by
  cases e with
  | begin p => exact ⟨[pointToCplx p], rfl⟩
  | line a b =>
    simp only [stepEvent, processLine_def]
    obtain ⟨t1, ht1⟩ := firstBranch_samples_ext sl (segLen a b) a b st
    obtain ⟨t2, ht2⟩ := compLoopLine_samples_ext a b (segLen a b) sl
      (firstBranch sl (segLen a b) a b st).2 fuel 0 (firstBranch sl (segLen a b) a b st).1
    exact ⟨t1 ++ t2, by simp only [ht2, ht1, List.append_assoc]⟩
  | stop last first close =>
    simp only [stepEvent]
    split
    · simp only [processClose_def]
      obtain ⟨t1, ht1⟩ := firstBranch_samples_ext sl (segLen last first) last first st
      obtain ⟨t2, ht2⟩ := compLoopClose_samples_ext last first (segLen last first) sl
        (firstBranch sl (segLen last first) last first st).2 fuel 0
        (firstBranch sl (segLen last first) last first st).1
      exact ⟨t1 ++ t2, by simp only [ht2, ht1, List.append_assoc]⟩
    · exact ⟨[], by simp⟩

theorem runEvents_samples_ext (sl : ℚ) (fuel : ℕ) :
    ∀ (evs : List PathEvent) (st : RState),
      ∃ t, (runEvents sl fuel st evs).samples = st.samples ++ t := by
  intro evs
  induction evs with
  | nil => intro st; exact ⟨[], by simp [runEvents]⟩
  | cons e es ih =>
    intro st
    simp only [runEvents]
    obtain ⟨t1, ht1⟩ := stepEvent_samples_ext sl fuel st e
    obtain ⟨t2, ht2⟩ := ih (stepEvent sl fuel st e)
    exact ⟨t1 ++ t2, by rw [ht2, ht1, List.append_assoc]⟩

theorem compLoopLine_eq_close (a b : Point) (cll sl last : ℚ) :
    ∀ (fuel c : ℕ) (st : RState),
      (∀ j : ℕ, sl * (j : ℚ) ≠ st.iteredLength + cll) →
      compLoopLine a b cll sl last fuel c st = compLoopClose a b cll sl last fuel c st := by
  intro fuel
  induction fuel with
  | zero => intro c st _; rfl
  | succ fuel ih =>
    intro c st h
    simp only [compLoopLine, compLoopClose]
    by_cases hlt : sl * (st.iteredIndex : ℚ) < st.iteredLength + cll
    · rw [if_pos (le_of_lt hlt), if_pos hlt]
      exact ih (c + 1) _ h
    · have hne : sl * (st.iteredIndex : ℚ) ≠ st.iteredLength + cll := h st.iteredIndex
      have hnle : ¬ sl * (st.iteredIndex : ℚ) ≤ st.iteredLength + cll :=
        fun hle => hlt (lt_of_le_of_ne hle hne)
      rw [if_neg hnle, if_neg hlt]

theorem foldl_append_bind {α β : Type} (f : α → List β) :
    ∀ (l : List α) (init : List β),
      l.foldl (fun acc x => acc ++ f x) init = init ++ l.flatMap f := by
  intro l
  induction l with
  | nil => intro init; simp
  | cons x xs ih =>
    intro init
    simp only [List.foldl_cons, List.flatMap_cons]
    rw [ih]
    simp [List.append_assoc]

theorem bind_pair_length {α β : Type} (f g : α → β) :
    ∀ (l : List α), (l.flatMap (fun i => [f i, g i])).length = 2 * l.length := by
  intro l
  induction l with
  | nil => simp
  | cons x xs ih =>
    simp only [List.flatMap_cons, List.length_append, List.length_cons, List.length_nil, ih]
    omega

theorem cplxToComplex_normalizeBy (m : ℕ) (z : Cplx) :
    cplxToComplex (normalizeBy m z) = cplxToComplex z / (m : ℂ) := by
  apply Complex.ext
  · simp only [cplxToComplex, normalizeBy, Complex.div_natCast_re]
    push_cast
    rfl
  · simp only [cplxToComplex, normalizeBy, Complex.div_natCast_im]
    push_cast
    rfl

theorem segLen_eval (p q : Point) (r : ℚ) (h : dist2 p q = r * r) (hr : 0 ≤ r) :
    segLen p q = r := by
  rw [segLen, h, Rat.sqrt_eq, abs_of_nonneg hr]

/-! ### Claim theorems -/

/-- Claim C10: the trimming loop of `path_to_fft` (repeatedly removing the
element at index `n` while the length exceeds `n`) leaves exactly the first
`min (length s) n` elements of `s` in their original order — it is equal to
truncation to length `n`. -/
theorem claim_C10_trim_is_truncation (s : List Cplx) (n : ℕ) :
    trimSamples s n = s.take n ∧ (trimSamples s n).length = min s.length n :=
  ⟨trimSamples_eq_take s n, trimSamples_length s n⟩

/-- Claim C8: `compute_path_length` returns exactly the sum of all segment
lengths, plus the length of the implicit closing segment (last endpoint to
first point) if and only if the contour is closed; a contour with zero
segments (`pts = []`) yields `polyLen _ [] + 0 = 0`. -/
theorem claim_C8_path_length_total (c : Contour) :
    compute_path_length (events c)
      = polyLen c.start c.pts +
          (if c.closed then segLen (c.pts.getLastD c.start) c.start else 0) :=
  compute_path_length_events c

/-- Claim C1: for every contour of positive total arc length (a valid contour;
a zero-length contour is the degenerate case of C6) and every requested sample
count `n ≥ 1`, the sample vector handed to the spectrum transform —
`construct_sample_points` followed by the trimming correction of
`path_to_fft` — has length exactly `n`.  `fuel ≥ n + 1` suffices for every
compensation loop to exit by its own guard. -/
theorem claim_C1_sample_count_invariant (c : Contour) (n fuel : ℕ)
    (hn : 1 ≤ n) (hfuel : n + 1 ≤ fuel)
    (hL : 0 < compute_path_length (events c)) :
    (resampled (events c) n fuel).length = n := by
  rw [resampled, trimSamples_length]
  have h := construct_samples_count c n fuel hn hfuel hL
  omega

/-- Witness for C1: the open 3-4-5 segment, `n = 2`. -/
theorem claim_C1_sample_count_invariant_witness :
    (resampled (events (Contour.mk (Point.mk 0 0) [Point.mk 3 4] false)) 2 3).length = 2 :=
  claim_C1_sample_count_invariant (Contour.mk (Point.mk 0 0) [Point.mk 3 4] false) 2 3
    (by norm_num) (by norm_num)
    (by
      have h1 : segLen (Point.mk 0 0) (Point.mk 3 4) = 5 := by
        rw [segLen_eval (Point.mk 0 0) (Point.mk 3 4) 5] <;> norm_num [dist2]
      have h0 : segLen (Point.mk 3 4) (Point.mk 3 4) = 0 := by
        rw [segLen_eval (Point.mk 3 4) (Point.mk 3 4) 0] <;> norm_num [dist2]
      norm_num [compute_path_length, events, lineEvents, lengthStep, h1, h0])

/-- Claim C2: for the closed unit square with corners (0,0),(1,0),(1,1),(0,1)
and `n = 8`, the resampler produces exactly the samples (0,0), (0.5,0), (1,0),
(1,0.5), (1,1), (0.5,1), (0,1), (0,0.5), in that order (arc-length spacing 1/2
on a perimeter of 4). -/
theorem claim_C2_square_scenario :
    compute_path_length
        (events (Contour.mk (Point.mk 0 0) [Point.mk 1 0, Point.mk 1 1, Point.mk 0 1] true))
      = 4 ∧
    construct_sample_points
        (events (Contour.mk (Point.mk 0 0) [Point.mk 1 0, Point.mk 1 1, Point.mk 0 1] true))
        (compute_path_length
          (events (Contour.mk (Point.mk 0 0) [Point.mk 1 0, Point.mk 1 1, Point.mk 0 1] true)))
        8 9
      = [Cplx.mk 0 0, Cplx.mk (1/2) 0, Cplx.mk 1 0, Cplx.mk 1 (1/2), Cplx.mk 1 1,
         Cplx.mk (1/2) 1, Cplx.mk 0 1, Cplx.mk 0 (1/2)] := by
  have e1 : segLen (Point.mk 0 0) (Point.mk 1 0) = 1 := by
    rw [segLen_eval (Point.mk 0 0) (Point.mk 1 0) 1] <;> norm_num [dist2]
  have e2 : segLen (Point.mk 1 0) (Point.mk 1 1) = 1 := by
    rw [segLen_eval (Point.mk 1 0) (Point.mk 1 1) 1] <;> norm_num [dist2]
  have e3 : segLen (Point.mk 1 1) (Point.mk 0 1) = 1 := by
    rw [segLen_eval (Point.mk 1 1) (Point.mk 0 1) 1] <;> norm_num [dist2]
  have e4 : segLen (Point.mk 0 1) (Point.mk 0 0) = 1 := by
    rw [segLen_eval (Point.mk 0 1) (Point.mk 0 0) 1] <;> norm_num [dist2]
  have hlen : compute_path_length
      (events (Contour.mk (Point.mk 0 0) [Point.mk 1 0, Point.mk 1 1, Point.mk 0 1] true))
      = 4 := by
    norm_num [compute_path_length, events, lineEvents, lengthStep, e1, e2, e3, e4]
  refine ⟨hlen, ?_⟩
  rw [hlen]
  norm_num [construct_sample_points, events, lineEvents, runEvents, stepEvent, processLine,
    processClose, firstBranch, compLoopLine, compLoopClose, compSample, lerp, pointToCplx,
    e1, e2, e3, e4]

/-- Claim C3 counterexample: with a 16-bin spectrum and requested wave count 5,
the extraction loop of `main` produces 3 components, not the claimed
`2 * (5 / 2) + 1 = 5` with frequencies [0, +1, −1, +2, −2]: the Rust range
`1..(num_wave / 2)` is upper-exclusive, so only `i = 1` runs. -/
theorem claim_C3_counterexample :
    (extract_components spec16 16 5).length = 3 ∧
    (extract_components spec16 16 5).map DrawData.frequency ≠
      [0, 1, -1, 2, -2] := by
  have hlen : (extract_components spec16 16 5).length = 3 := by
    simp [extract_components, List.range']
  refine ⟨hlen, fun hmap => ?_⟩
  have hcontra := congrArg List.length hmap
  rw [List.length_map, hlen] at hcontra
  simp at hcontra

/-- Claim C3 amended: the extraction loop produces component 0 (frequency 0,
coefficient `SpectrumVector[0]`) followed, for `i = 1` up to `⌊W/2⌋ − 1`
EXCLUSIVE of `⌊W/2⌋` (the Rust range `1..(W/2)`), by the interleaved pair
(+i, `SpectrumVector[i]`) then (−i, `SpectrumVector[N−i]`); its size is
therefore `2 * (⌊W/2⌋ − 1) + 1` (with `⌊W/2⌋ − 1` truncated at 0), not
`2 * ⌊W/2⌋ + 1`.  For N = 16, W = 5 this yields [0, +1, −1]. -/
theorem claim_C3_extraction_corrected (s : List Cplx) (n w : ℕ) :
    extract_components s n w
      = new_from_complex 0 (s.getD 0 (Cplx.mk 0 0)) ::
          (List.range' 1 (w / 2 - 1)).flatMap
            (fun i => [new_from_complex (i : ℚ) (s.getD i (Cplx.mk 0 0)),
                       new_from_complex (-(i : ℚ)) (s.getD (n - i) (Cplx.mk 0 0))]) ∧
    (extract_components s n w).length = 2 * (w / 2 - 1) + 1 := by
  have heq : extract_components s n w
      = [new_from_complex 0 (s.getD 0 (Cplx.mk 0 0))] ++
          (List.range' 1 (w / 2 - 1)).flatMap
            (fun i => [new_from_complex (i : ℚ) (s.getD i (Cplx.mk 0 0)),
                       new_from_complex (-(i : ℚ)) (s.getD (n - i) (Cplx.mk 0 0))]) := by
    unfold extract_components
    rw [foldl_append_bind]
  constructor
  · rw [heq]
    simp
  · rw [heq]
    rw [List.length_append,
      bind_pair_length (fun i : ℕ => new_from_complex (i : ℚ) (s.getD i (Cplx.mk 0 0)))
        (fun i : ℕ => new_from_complex (-(i : ℚ)) (s.getD (n - i) (Cplx.mk 0 0)))]
    simp [List.length_range']
    omega

/-- Claim C4 counterexample: the boundary conditions of the two compensation
loops are NOT the same.  For the segment (0,0)→(2,0) with step 1, entered with
`itered_length = 0` and `itered_index = 1`, the regular-segment loop (inclusive
`<=`, source line 93) emits the sample at the segment's end arc length, while
the closing-segment loop (strict `<`, source line 133) skips it, so the two
code paths emit different samples from identical inputs. -/
theorem claim_C4_counterexample :
    (processLine 1 (Point.mk 0 0) (Point.mk 2 0) 5 (RState.mk [Cplx.mk 0 0] 0 1)).samples
      ≠ (processClose 1 (Point.mk 0 0) (Point.mk 2 0) 5 (RState.mk [Cplx.mk 0 0] 0 1)).samples := by
  have e : segLen (Point.mk 0 0) (Point.mk 2 0) = 2 := by
    rw [segLen_eval (Point.mk 0 0) (Point.mk 2 0) 2] <;> norm_num [dist2]
  norm_num [processLine, processClose, firstBranch, compLoopLine, compLoopClose,
    compSample, lerp, pointToCplx, e]

/-- Claim C4 amended: the regular-segment compensation loop is inclusive (`<=`)
at its upper bound while the closing-segment loop is strict (`<`); the two
code paths emit identical samples and advance the index identically whenever
no sample target `sl * j` falls EXACTLY on the segment's end arc length
`itered_length + segment length` (they differ only there; in the full pipeline
such a sample has index ≥ N and is removed by the trim). -/
theorem claim_C4_boundary_agreement (sl : ℚ) (a b : Point) (fuel : ℕ) (st : RState)
    (h : ∀ j : ℕ, sl * (j : ℚ) ≠ st.iteredLength + segLen a b) :
    (processLine sl a b fuel st).samples = (processClose sl a b fuel st).samples ∧
    (processLine sl a b fuel st).iteredIndex = (processClose sl a b fuel st).iteredIndex := by
  rw [processLine_def, processClose_def]
  have hfb1 : (firstBranch sl (segLen a b) a b st).1.iteredLength = st.iteredLength :=
    (firstBranch_state sl (segLen a b) a b st).1
  have hcongr := compLoopLine_eq_close a b (segLen a b) sl
    (firstBranch sl (segLen a b) a b st).2 fuel 0 (firstBranch sl (segLen a b) a b st).1
    (by rw [hfb1]; exact h)
  rw [hcongr]
  exact ⟨rfl, rfl⟩

/-- Witness for the amended C4: a segment of length 1/4 entered at arc length
1/4 with step 1 — no target hits the boundary 1/2 exactly, and the two loops
agree. -/
theorem claim_C4_boundary_agreement_witness :
    (processLine 1 (Point.mk 0 0) (Point.mk (1/4) 0) 3 (RState.mk [] (1/4) 1)).samples
      = (processClose 1 (Point.mk 0 0) (Point.mk (1/4) 0) 3 (RState.mk [] (1/4) 1)).samples ∧
    (processLine 1 (Point.mk 0 0) (Point.mk (1/4) 0) 3 (RState.mk [] (1/4) 1)).iteredIndex
      = (processClose 1 (Point.mk 0 0) (Point.mk (1/4) 0) 3 (RState.mk [] (1/4) 1)).iteredIndex :=
  claim_C4_boundary_agreement 1 (Point.mk 0 0) (Point.mk (1/4) 0) 3 (RState.mk [] (1/4) 1)
    (by
      have e : segLen (Point.mk 0 0) (Point.mk (1/4) 0) = 1/4 := by
        rw [segLen_eval (Point.mk 0 0) (Point.mk (1/4) 0) (1/4)] <;> norm_num [dist2]
      intro j
      rw [e]
      cases j with
      | zero => norm_num
      | succ m =>
        have h1 : (1 : ℚ) ≤ ((m + 1 : ℕ) : ℚ) := by
          exact_mod_cast Nat.succ_le_succ (Nat.zero_le m)
        push_cast at h1 ⊢
        intro hc
        norm_num at hc
        linarith)

/-- Claim C5 counterexample: a zero-length segment CAN advance the next-sample
index (and divide by the zero segment length).  The state below arises from
the contour `Begin (0,0); Line (0,0)→(0,0); ...` with total length 0 and
`n_sample = 4`, so `sample_length = 0`: the compensation guard
`0 * itered_index <= itered_length + 0` holds and the loop body runs (in the
source it runs forever, emitting NaN samples; `fuel = 1` exhibits its first
iteration), advancing `itered_index` from 1 to 2. -/
theorem claim_C5_counterexample :
    1 < (processLine 0 (Point.mk 0 0) (Point.mk 0 0) 1 (RState.mk [Cplx.mk 0 0] 0 1)).iteredIndex := by
  have e : segLen (Point.mk 0 0) (Point.mk 0 0) = 0 := by
    rw [segLen_eval (Point.mk 0 0) (Point.mk 0 0) 0] <;> norm_num [dist2]
  norm_num [processLine, firstBranch, compLoopLine, compSample, pointToCplx, e]

/-- Claim C5 amended: provided the walk is in its normal regime — the next
sample target lies strictly ahead of the consumed arc length
(`itered_length < sample_length * itered_index`, which holds throughout for
contours of positive total length) — a segment of length 0 leaves the state
completely unchanged in both code paths: no sample is emitted (so none of the
dividing expressions is evaluated) and the next-sample index does not
advance. -/
theorem claim_C5_zero_segment_skipped (sl : ℚ) (a b : Point) (fuel : ℕ) (st : RState)
    (hz : segLen a b = 0) (hinv : st.iteredLength < sl * (st.iteredIndex : ℚ)) :
    processLine sl a b fuel st = st ∧ processClose sl a b fuel st = st := by
  have hfb : firstBranch sl (segLen a b) a b st = (st, 0) := by
    unfold firstBranch
    rw [hz, if_pos hinv, if_neg]
    intro hge
    rw [add_zero] at hge
    exact absurd hinv (not_lt.mpr hge)
  have hloopL : ∀ (f c : ℕ), compLoopLine a b 0 sl 0 f c st = st := by
    intro f c
    cases f with
    | zero => rfl
    | succ f =>
      simp only [compLoopLine]
      rw [if_neg]
      rw [add_zero]
      exact not_le.mpr hinv
  have hloopC : ∀ (f c : ℕ), compLoopClose a b 0 sl 0 f c st = st := by
    intro f c
    cases f with
    | zero => rfl
    | succ f =>
      simp only [compLoopClose]
      rw [if_neg]
      rw [add_zero]
      exact not_lt.mpr (le_of_lt hinv)
  constructor
  · rw [processLine_def, hfb]
    simp only [hz, hloopL, add_zero]
  · rw [processClose_def, hfb]
    simp only [hz, hloopC]

/-- Witness for the amended C5: a coincident-endpoint segment with step 1. -/
theorem claim_C5_zero_segment_skipped_witness :
    processLine 1 (Point.mk 5 5) (Point.mk 5 5) 2 (RState.mk [] 0 1) = RState.mk [] 0 1 ∧
    processClose 1 (Point.mk 5 5) (Point.mk 5 5) 2 (RState.mk [] 0 1) = RState.mk [] 0 1 :=
  claim_C5_zero_segment_skipped 1 (Point.mk 5 5) (Point.mk 5 5) 2 (RState.mk [] 0 1)
    (by rw [segLen_eval (Point.mk 5 5) (Point.mk 5 5) 0] <;> norm_num [dist2])
    (by norm_num)

/-- Claim C6 counterexample: for the degenerate single-point closed contour
(total arc length 0) and `n_sample = 4`, `path_to_fft` surfaces no error of
any kind before (or after) resampling: resampling runs, produces the lone
begin sample, and an ordinary length-1 vector — not the requested length 4 —
is handed to the transform stage (where the real `rustfft` would panic on the
size mismatch; here the black box is instantiated with `id`). -/
theorem claim_C6_counterexample :
    path_to_fft id (events (Contour.mk (Point.mk 0 0) [] true)) 4 5 = [Cplx.mk 0 0] ∧
    (path_to_fft id (events (Contour.mk (Point.mk 0 0) [] true)) 4 5).length ≠ 4 := by
  have e0 : segLen (Point.mk 0 0) (Point.mk 0 0) = 0 := by
    rw [segLen_eval (Point.mk 0 0) (Point.mk 0 0) 0] <;> norm_num [dist2]
  have hcon : path_to_fft id (events (Contour.mk (Point.mk 0 0) [] true)) 4 5
      = [Cplx.mk 0 0] := by
    norm_num [path_to_fft, construct_sample_points, events, lineEvents, runEvents,
      stepEvent, processClose, firstBranch, compLoopClose, compute_path_length,
      lengthStep, trimSamples_eq_take, pointToCplx, normalizeBy, e0]
  exact ⟨hcon, by rw [hcon]; norm_num⟩

/-- Claim C6 amended: the pipeline performs no degenerate-input check and
defines no error value.  A single-point closed contour has total arc length 0;
resampling still runs and emits exactly the begin sample, so for every
requested count `n ≥ 1` the vector handed to the spectrum transform is the
length-1 list `[p]` (never the requested length when `n > 1`); the degenerate
condition is not surfaced to the caller before resampling — with the real
`rustfft` it only manifests later, as a buffer-size panic inside the external
transform. -/
theorem claim_C6_degenerate_not_rejected (p : Point) (n fuel : ℕ) (hn : 1 ≤ n) :
    compute_path_length (events (Contour.mk p [] true)) = 0 ∧
    resampled (events (Contour.mk p [] true)) n fuel = [pointToCplx p] := by
  have hz : segLen p p = 0 := by
    have hd : dist2 p p = 0 * 0 := by simp [dist2]
    rw [segLen_eval p p 0 hd le_rfl]
  have hL : compute_path_length (events (Contour.mk p [] true)) = 0 := by
    simp [compute_path_length, events, lineEvents, lengthStep, hz]
  refine ⟨hL, ?_⟩
  have hstep : construct_sample_points (events (Contour.mk p [] true)) 0 n fuel
      = (processClose ((0 : ℚ) / (n : ℚ)) p p fuel (RState.mk [pointToCplx p] 0 1)).samples :=
    rfl
  have hproc : processClose ((0 : ℚ) / (n : ℚ)) p p fuel (RState.mk [pointToCplx p] 0 1)
      = RState.mk [pointToCplx p] 0 1 := by
    rw [processClose_def]
    have hfb : firstBranch ((0 : ℚ) / (n : ℚ)) (segLen p p) p p (RState.mk [pointToCplx p] 0 1)
        = (RState.mk [pointToCplx p] 0 1, 0) := by
      unfold firstBranch
      rw [if_neg]
      simp
    rw [hfb]
    cases fuel with
    | zero => rfl
    | succ f =>
      simp only [compLoopClose]
      rw [if_neg]
      simp [hz]
  rw [resampled, hL, hstep, hproc, trimSamples_eq_take]
  cases n with
  | zero => omega
  | succ m => simp

/-- Witness for the amended C6: the single point (2,3) with `n = 4`. -/
theorem claim_C6_degenerate_not_rejected_witness :
    compute_path_length (events (Contour.mk (Point.mk 2 3) [] true)) = 0 ∧
    resampled (events (Contour.mk (Point.mk 2 3) [] true)) 4 5
      = [pointToCplx (Point.mk 2 3)] :=
  claim_C6_degenerate_not_rejected (Point.mk 2 3) 4 5 (by norm_num)

/-- Claim C7 counterexample: a requested sample count of 0 is NOT rejected —
no `ParameterError` exists.  On the open 3-4-5 segment with `n_sample = 0`,
sample construction still runs (emitting the begin sample; in the source
`sample_length = L / 0` is the f32 infinity, so no further guard fires —
`fuel = 0` reflects the zero compensation iterations), the trim then empties
the buffer, and the transform stage is reached with an empty vector (the real
`rustfft` would panic there on the size mismatch). -/
theorem claim_C7_counterexample :
    construct_sample_points (events (Contour.mk (Point.mk 0 0) [Point.mk 3 4] false)) 5 0 0
      = [Cplx.mk 0 0] ∧
    path_to_fft id (events (Contour.mk (Point.mk 0 0) [Point.mk 3 4] false)) 0 3 = [] := by
  have e1 : segLen (Point.mk 0 0) (Point.mk 3 4) = 5 := by
    rw [segLen_eval (Point.mk 0 0) (Point.mk 3 4) 5] <;> norm_num [dist2]
  constructor
  · norm_num [construct_sample_points, events, lineEvents, runEvents, stepEvent,
      processLine, firstBranch, compLoopLine, pointToCplx, e1]
  · norm_num [path_to_fft, construct_sample_points, events, lineEvents, runEvents,
      stepEvent, processLine, firstBranch, compLoopLine, compute_path_length,
      lengthStep, trimSamples_eq_take, pointToCplx, normalizeBy, e1]

/-- Claim C7 amended: `sampleCount = 0` is not rejected and no `ParameterError`
exists: for every contour, sample construction is still invoked (its first
pushed sample is the contour's begin point), the trimming loop then removes
every sample, and the transform stage is reached with the empty buffer, so
`path_to_fft` returns an ordinary empty list rather than an error (the real
`rustfft` panics inside the external transform on the size mismatch). -/
theorem claim_C7_zero_count_not_rejected (c : Contour) (fuel : ℕ) :
    path_to_fft id (events c) 0 fuel = [] ∧
    (construct_sample_points (events c) (compute_path_length (events c)) 0 fuel).head?
      = some (pointToCplx c.start) := by
  constructor
  · show (trimSamples (construct_sample_points (events c) (compute_path_length (events c))
        0 fuel) 0).map
          (normalizeBy (trimSamples (construct_sample_points (events c)
            (compute_path_length (events c)) 0 fuel) 0).length) = []
    rw [trimSamples_eq_take]
    simp
  · obtain ⟨t, ht⟩ := runEvents_samples_ext
      (compute_path_length (events c) / ((0 : ℕ) : ℚ)) fuel
      (lineEvents c.start c.pts ++ [PathEvent.stop (c.pts.getLastD c.start) c.start c.closed])
      (RState.mk [pointToCplx c.start] 0 1)
    have hcon : construct_sample_points (events c) (compute_path_length (events c)) 0 fuel
        = (runEvents (compute_path_length (events c) / ((0 : ℕ) : ℚ)) fuel
            (RState.mk [pointToCplx c.start] 0 1)
            (lineEvents c.start c.pts ++
              [PathEvent.stop (c.pts.getLastD c.start) c.start c.closed])).samples := rfl
    rw [hcon, ht]
    simp

theorem resampled_pt34 :
    resampled (events (Contour.mk (Point.mk 3 4) [] true)) 1 2 = [Cplx.mk 3 4] := by
  have hz : segLen (Point.mk 3 4) (Point.mk 3 4) = 0 := by
    rw [segLen_eval (Point.mk 3 4) (Point.mk 3 4) 0] <;> norm_num [dist2]
  norm_num [resampled, construct_sample_points, events, lineEvents, runEvents,
    stepEvent, processClose, firstBranch, compLoopClose, compute_path_length,
    lengthStep, trimSamples_eq_take, pointToCplx, hz]

/-- Claim C9: provided the external transform (`rustfft`, the black box
`fftImpl`) computes the standard unnormalized forward DFT of the size-`n`
trimmed sample vector, every coefficient `k` of the spectrum returned by
`path_to_fft` equals `(1/n) · Σ_{m=0}^{n-1} Sample[m] · e^{−2πi·k·m/n}`: the
normalization of source lines 163-165 divides each coefficient by the buffer
length `n`, exactly once. -/
theorem claim_C9_normalization (fftImpl : List Cplx → List Cplx)
    (evs : List PathEvent) (n fuel k : ℕ) (hk : k < n)
    (hfft_len : (fftImpl (resampled evs n fuel)).length = n)
    (hdft : cplxToComplex ((fftImpl (resampled evs n fuel)).getD k (Cplx.mk 0 0))
      = ∑ m ∈ Finset.range n,
          cplxToComplex ((resampled evs n fuel).getD m (Cplx.mk 0 0)) *
            Complex.exp (-(2 * Real.pi * Complex.I * (k : ℂ) * (m : ℂ)) / (n : ℂ))) :
    cplxToComplex ((path_to_fft fftImpl evs n fuel).getD k (Cplx.mk 0 0))
      = (1 / (n : ℂ)) * ∑ m ∈ Finset.range n,
          cplxToComplex ((resampled evs n fuel).getD m (Cplx.mk 0 0)) *
            Complex.exp (-(2 * Real.pi * Complex.I * (k : ℂ) * (m : ℂ)) / (n : ℂ)) := by
  have hpath : path_to_fft fftImpl evs n fuel
      = (fftImpl (resampled evs n fuel)).map
          (normalizeBy (fftImpl (resampled evs n fuel)).length) := rfl
  rw [hpath, hfft_len]
  have hk' : k < (fftImpl (resampled evs n fuel)).length := by
    rw [hfft_len]; exact hk
  have hgetD : ((fftImpl (resampled evs n fuel)).map (normalizeBy n)).getD k (Cplx.mk 0 0)
      = normalizeBy n ((fftImpl (resampled evs n fuel)).getD k (Cplx.mk 0 0)) := by
    rw [List.getD_eq_getElem?_getD, List.getElem?_map,
      List.getElem?_eq_getElem hk', List.getD_eq_getElem?_getD,
      List.getElem?_eq_getElem hk']
    rfl
  rw [hgetD, cplxToComplex_normalizeBy, hdft, div_eq_mul_inv, one_div, mul_comm]

/-- Witness for C9: the single-point contour (3,4), `n = 1`, transform `id`
(the unnormalized DFT of a length-1 vector is the identity). -/
theorem claim_C9_normalization_witness :
    cplxToComplex ((path_to_fft id (events (Contour.mk (Point.mk 3 4) [] true)) 1 2).getD 0
        (Cplx.mk 0 0))
      = (1 / ((1 : ℕ) : ℂ)) * ∑ m ∈ Finset.range 1,
          cplxToComplex ((resampled (events (Contour.mk (Point.mk 3 4) [] true)) 1 2).getD m
              (Cplx.mk 0 0)) *
            Complex.exp (-(2 * Real.pi * Complex.I * ((0 : ℕ) : ℂ) * (m : ℂ)) / ((1 : ℕ) : ℂ)) :=
  claim_C9_normalization id (events (Contour.mk (Point.mk 3 4) [] true)) 1 2 0
    (by norm_num)
    (by rw [resampled_pt34]; rfl)
    (by
      rw [resampled_pt34]
      norm_num [Finset.sum_range_one, Complex.exp_zero, cplxToComplex])
